import Mathlib

set_option linter.unusedVariables false

namespace GaloisWL

/-- Pointwise update of a worker-indexed store, modelling the per-worker
    storage (CPUSpaced): each worker index holds its own record. -/
def setAt {α : Type} (f : Nat → α) (w : Nat) (a : α) : Nat → α :=
  fun x => if x = w then a else f x

/-- STLAdaptor.pop: if the wrapped container is empty, return (false, default)
    and leave the container unchanged; otherwise return (true, top) and pop
    the container. -/
def stlPop {σ T : Type} [Inhabited T] (emptyQ : σ → Bool) (topQ : σ → T)
    (popQ : σ → σ) (s : σ) : (Bool × T) × σ :=
  if emptyQ s then ((false, default), s) else ((true, topQ s), popQ s)

/-- LIFO push: std::stack push, with the most recent element at the head. -/
def lifoPush {T : Type} (v : T) (s : List T) : List T := v :: s

/-- LIFO pop through the STL adaptor: top is the head of the stack. -/
def lifoPop {T : Type} [Inhabited T] (s : List T) : (Bool × T) × List T :=
  stlPop List.isEmpty (fun l => l.headD default) List.tail s

/-- FIFO push: std::queue push at the back; the head of the list is the front
    of the queue. -/
def fifoPush {T : Type} (v : T) (s : List T) : List T := s ++ [v]

/-- FIFO pop through the STL adaptor with the stdqueueFix shim exposing front
    as top. -/
def fifoPop {T : Type} [Inhabited T] (s : List T) : (Bool × T) × List T :=
  stlPop List.isEmpty (fun l => l.headD default) List.tail s

/-- Top of std::priority_queue under the default comparator: the greatest
    element of the multiset. -/
def pqTop {T : Type} [Inhabited T] [LinearOrder T] (s : List T) : T :=
  match s with
  | [] => default
  | x :: xs => xs.foldl max x

/-- PriQueue pop through the STL adaptor: remove one occurrence of the
    greatest element. -/
def pqPop {T : Type} [Inhabited T] [LinearOrder T] (s : List T) :
    (Bool × T) × List T :=
  stlPop List.isEmpty pqTop (fun l => l.erase (pqTop l)) s

/-- A chunk of ChunkedFIFO: the single-thread LIFO backing container, with
    the head of the list as the top of the stack. -/
abbrev Chunk (T : Type) := List T

/-- Per-worker record of ChunkedFIFO: the next chunk being filled, its size
    counter, and the current chunk being drained. A null chunk pointer is
    modelled as none. -/
structure ProcRec (T : Type) where
  next : Option (Chunk T)
  nextSize : Nat
  curr : Option (Chunk T)
deriving DecidableEq

/-- ChunkedFIFO state: the global concurrent FIFO of chunk pointers (head is
    the front) and the per-worker records. -/
structure CF (T : Type) where
  items : List (Option (Chunk T))
  procs : Nat → ProcRec T

/-- Freshly constructed ChunkedFIFO: empty global FIFO, every worker record
    default-initialized with null next and curr. -/
def initCF {T : Type} : CF T := { items := [], procs := fun _ => ⟨none, 0, none⟩ }

namespace ChunkedFIFO

/-- push_next at the record level: allocate next if null (resetting the size
    counter), publish next to the global FIFO when the counter equals
    ChunkSize and start a fresh next, then push the value onto next and bump
    the counter. Returns the updated record and the list of published chunk
    pointers. -/
def pushNextRec {T : Type} (CS : Nat) (n : ProcRec T) (v : T) :
    ProcRec T × List (Option (Chunk T)) :=
  let c0 : Chunk T := match n.next with | none => [] | some c => c
  let s0 : Nat := match n.next with | none => 0 | some _ => n.nextSize
  if s0 = CS then
    (⟨some [v], 1, n.curr⟩, [some c0])
  else
    (⟨some (v :: c0), s0 + 1, n.curr⟩, [])

/-- ChunkedFIFO.push_next: record-level push_next of the given worker, with
    published chunks appended at the back of the global FIFO. -/
def push_next {T : Type} (CS : Nat) (s : CF T) (w : Nat) (v : T) : CF T :=
  let r := pushNextRec CS (s.procs w) v
  { items := s.items ++ r.2, procs := setAt s.procs w r.1 }

/-- ChunkedFIFO.fill_curr: pop a chunk pointer from the front of the global
    FIFO into curr; if the global FIFO is empty, take over the worker next
    chunk and null out next. -/
def fill_curr {T : Type} (s : CF T) (w : Nat) : CF T :=
  match s.items with
  | oc :: rest =>
      { items := rest,
        procs := setAt s.procs w ⟨(s.procs w).next, (s.procs w).nextSize, oc⟩ }
  | [] =>
      { items := [],
        procs := setAt s.procs w ⟨none, (s.procs w).nextSize, (s.procs w).next⟩ }

/-- ChunkedFIFO.push_local: if curr is null, fill it; if curr is then
    non-null push onto it, otherwise fall back to push_next. -/
def push_local {T : Type} (CS : Nat) (s : CF T) (w : Nat) (v : T) : CF T :=
  let s1 := if (s.procs w).curr.isNone then fill_curr s w else s
  match (s1.procs w).curr with
  | some c =>
      { s1 with
        procs := setAt s1.procs w
          ⟨(s1.procs w).next, (s1.procs w).nextSize, some (v :: c)⟩ }
  | none => push_next CS s1 w v

/-- ChunkedFIFO.push: dispatch on the pushToLocal template parameter. -/
def push {T : Type} (CS : Nat) (ptl : Bool) (s : CF T) (w : Nat) (v : T) : CF T :=
  if ptl then push_local CS s w v else push_next CS s w v

/-- ChunkedFIFO.aborted: always push_next, regardless of pushToLocal. -/
def aborted {T : Type} (CS : Nat) (s : CF T) (w : Nat) (v : T) : CF T :=
  push_next CS s w v

/-- Number of chunk slots reachable by worker w during a pop: entries of the
    global FIFO plus the worker own next and curr slots when occupied. -/
def numChunks {T : Type} (s : CF T) (w : Nat) : Nat :=
  s.items.length + (if (s.procs w).next.isSome then 1 else 0) +
    (if (s.procs w).curr.isSome then 1 else 0)

/-- ChunkedFIFO.pop with explicit recursion fuel; each unit of fuel is one
    invocation of the recursive C++ pop. If curr is null, fill it; a null
    curr after filling fails; an empty curr chunk is deleted and pop
    recurses; otherwise pop from curr. none means the fuel ran out. -/
def popFuel {T : Type} [Inhabited T] :
    Nat → CF T → Nat → Option ((Bool × T) × CF T)
  | 0, _, _ => none
  | fuel + 1, s, w =>
    let s1 := if (s.procs w).curr.isNone then fill_curr s w else s
    match (s1.procs w).curr with
    | none => some ((false, default), s1)
    | some [] =>
        popFuel fuel
          { s1 with
            procs := setAt s1.procs w
              ⟨(s1.procs w).next, (s1.procs w).nextSize, none⟩ } w
    | some (x :: xs) =>
        some ((true, x),
          { s1 with
            procs := setAt s1.procs w
              ⟨(s1.procs w).next, (s1.procs w).nextSize, some xs⟩ })

/-- ChunkedFIFO.pop: run the fueled pop with enough fuel for the worker. -/
def pop {T : Type} [Inhabited T] (s : CF T) (w : Nat) : (Bool × T) × CF T :=
  (popFuel (numChunks s w + 1) s w).getD ((false, default), s)

/-- ChunkedFIFO.empty: false when the worker curr or next chunk is non-null
    and non-empty, otherwise report emptiness of the global FIFO. -/
def emptyWL {T : Type} (s : CF T) (w : Nat) : Bool :=
  match (s.procs w).curr with
  | some (_ :: _) => false
  | _ =>
    match (s.procs w).next with
    | some (_ :: _) => false
    | _ => s.items.isEmpty

/-- ChunkedFIFO.fill_initial: push_next every element of the range, then
    publish the worker next chunk pointer (whatever it is, even null or an
    incomplete chunk) to the global FIFO and null out next. -/
def fill_initial {T : Type} (CS : Nat) (s : CF T) (w : Nat) (vals : List T) :
    CF T :=
  let s1 := vals.foldl (fun acc v => push_next CS acc w v) s
  { items := s1.items ++ [(s1.procs w).next],
    procs := setAt s1.procs w ⟨none, (s1.procs w).nextSize, (s1.procs w).curr⟩ }

end ChunkedFIFO

/-- One operation against a ChunkedFIFO, tagged with the acting worker. -/
inductive Op (T : Type) where
  | pushOp : Nat → T → Op T
  | abortOp : Nat → T → Op T
  | popStep : Nat → Op T
  | fillInit : Nat → List T → Op T

/-- Whether an operation is a fill_initial. -/
def Op.isFill {T : Type} : Op T → Bool
  | .fillInit _ _ => true
  | _ => false

/-- Apply one operation to a ChunkedFIFO state. -/
def applyOp {T : Type} [Inhabited T] (CS : Nat) (ptl : Bool) (s : CF T) :
    Op T → CF T
  | .pushOp w v => ChunkedFIFO.push CS ptl s w v
  | .abortOp w v => ChunkedFIFO.aborted CS s w v
  | .popStep w => (ChunkedFIFO.pop s w).2
  | .fillInit w vals => ChunkedFIFO.fill_initial CS s w vals

/-- Apply a sequence of operations, left to right. -/
def applyOps {T : Type} [Inhabited T] (CS : Nat) (ptl : Bool) (s : CF T)
    (ops : List (Op T)) : CF T :=
  ops.foldl (applyOp CS ptl) s

/-- Spec predicate for chunk fullness: every chunk pointer visible in the
    global chunk FIFO points to a chunk holding exactly CS items. -/
def itemsFull {T : Type} (CS : Nat) (s : CF T) : Prop :=
  ∀ oc ∈ s.items, ∀ c, oc = some c → c.length = CS

/-- Auxiliary invariant: every worker next chunk holds exactly nextSize
    items, so the chunk published when the counter reaches ChunkSize is
    full. -/
def nextSized {T : Type} (s : CF T) : Prop :=
  ∀ u, ∀ c, (s.procs u).next = some c → c.length = (s.procs u).nextSize

/-- OrderedByIntegerMetric state for one worker view: the bucket array
    (length range + 1 in a well-formed state), its allocated length, and the
    worker cursor. Buckets are FIFO sub-worklists, head at the front. -/
structure OBIM (T : Type) where
  size : Nat
  data : List (List T)
  cursor : Nat
deriving DecidableEq

namespace OrderedByIntegerMetric

/-- OrderedByIntegerMetric.push: compute the bucket index with the indexer,
    push at the back of that bucket, and rewind the cursor when the index is
    lower than it. An out-of-range index leaves the array unchanged. -/
def push {T : Type} (I : T → Nat → Nat) (s : OBIM T) (v : T) : OBIM T :=
  let index := I v s.size
  { s with
    data := s.data.set index (s.data.getD index [] ++ [v]),
    cursor := if s.cursor > index then index else s.cursor }

/-- The scan loop of OrderedByIntegerMetric.pop: pop bucket cur; while the
    pop failed and cur < size, increment cur and pop again. Reading past the
    end of the bucket array is modelled as reading an empty bucket. The fuel
    argument only bounds recursion; size + 1 units always suffice. -/
def popGo {T : Type} [Inhabited T] (sz : Nat) :
    Nat → List (List T) → Nat → (Bool × T) × List (List T) × Nat
  | 0, data, cur => ((false, default), data, cur)
  | fuel + 1, data, cur =>
    match data.getD cur [] with
    | [] =>
        if cur < sz then popGo sz fuel data (cur + 1)
        else ((false, default), data, cur)
    | x :: xs => ((true, x), data.set cur xs, cur)

/-- OrderedByIntegerMetric.pop: wrap the cursor to 0 when it equals size,
    then run the scan loop and store the final cursor. -/
def pop {T : Type} [Inhabited T] (s : OBIM T) : (Bool × T) × OBIM T :=
  let c0 := if s.cursor = s.size then 0 else s.cursor
  let r := popGo s.size (s.size + 1) s.data c0
  (r.1, { s with data := r.2.1, cursor := r.2.2 })

/-- The indices at which the scan loop of pop performs a sub-worklist access
    data[i].pop(), in order. Mirrors popGo exactly. -/
def popAccesses {T : Type} (sz : Nat) :
    Nat → List (List T) → Nat → List Nat
  | 0, _, _ => []
  | fuel + 1, data, cur =>
    match data.getD cur [] with
    | [] => if cur < sz then cur :: popAccesses sz fuel data (cur + 1) else [cur]
    | _ :: _ => [cur]

/-- The access list of one call to pop on the given state. -/
def popAccessList {T : Type} (s : OBIM T) : List Nat :=
  popAccesses (T := T) s.size (s.size + 1) s.data
    (if s.cursor = s.size then 0 else s.cursor)

end OrderedByIntegerMetric

/-- CacheByIntegerMetric state for one worker: the fixed array of cache
    slots (valid slots are some) and the parent worklist, modelled as the
    list of values forwarded to it in order. -/
structure CacheWL (T : Type) where
  slots : List (Option T)
  parent : List T

namespace CacheByIntegerMetric

/-- The slot walk of CacheByIntegerMetric.push: on a valid slot whose item
    has strictly larger metric than the carried value, swap and continue;
    the first empty slot takes the carried value and stops; falling off the
    end forwards the carried value. Returns the forwarded value (if any)
    and the updated slots. -/
def pushAux {T : Type} (I : T → Nat) (v : T) :
    List (Option T) → Option T × List (Option T)
  | [] => (some v, [])
  | none :: rest => (none, some v :: rest)
  | some x :: rest =>
    if I v < I x then
      let r := pushAux I x rest
      (r.1, some v :: r.2)
    else
      let r := pushAux I v rest
      (r.1, some x :: r.2)

/-- CacheByIntegerMetric.push: run the slot walk; when a value falls off the
    end of the cache, forward it to the parent worklist. -/
def push {T : Type} (I : T → Nat) (c : CacheWL T) (v : T) : CacheWL T :=
  let r := pushAux I v c.slots
  match r.1 with
  | some out => { slots := r.2, parent := c.parent ++ [out] }
  | none => { slots := r.2, parent := c.parent }

end CacheByIntegerMetric


/-- C3: with range = 3 (bucket array length 4) and indexer I(v) = v, a single
    worker pushing 2, 0, 1 and then popping three times obtains 0, then 1,
    then 2, in that order. -/
theorem obim_priority_example :
    (let I : Nat → Nat → Nat := fun v _ => v
     let s0 : OBIM Nat := ⟨4, [[], [], [], []], 0⟩
     let s3 := OrderedByIntegerMetric.push I
       (OrderedByIntegerMetric.push I (OrderedByIntegerMetric.push I s0 2) 0) 1
     let p1 := OrderedByIntegerMetric.pop s3
     let p2 := OrderedByIntegerMetric.pop p1.2
     let p3 := OrderedByIntegerMetric.pop p2.2
     p1.1 = (true, 0) ∧ p2.1 = (true, 1) ∧ p3.1 = (true, 2)) := by
  decide

/-- C8: on an OBIM with range = 3 (allocated bucket array length 4) whose
    buckets are all empty, one pop accesses the sub-worklists at indices
    0, 1, 2, 3 and 4; the access at index 4 is out of bounds, refuting the
    claim that every access index is strictly below range + 1. -/
theorem obim_pop_oob :
    OrderedByIntegerMetric.popAccessList (⟨4, [[], [], [], []], 0⟩ : OBIM Nat)
        = [0, 1, 2, 3, 4] ∧
      ¬ (∀ i ∈ OrderedByIntegerMetric.popAccessList
          (⟨4, [[], [], [], []], 0⟩ : OBIM Nat), i < 4) := by
  decide

/-- C10: fill_initial over an empty range publishes the worker null next
    pointer to the global chunk FIFO; immediately afterwards empty() is
    false, yet the first pop by the same worker returns ok = false with the
    sentinel and drains the null entry. -/
theorem fill_initial_empty_publishes_null :
    (let s := ChunkedFIFO.fill_initial (T := Nat) 64 initCF 0 []
     s.items = [none] ∧ ChunkedFIFO.emptyWL s 0 = false ∧
       (ChunkedFIFO.pop s 0).1 = (false, 0) ∧
       (ChunkedFIFO.pop s 0).2.items = []) := by
  decide

/-- C2 counterexample: with ChunkSize = 4 and the default pushToLocal = true,
    after a single worker pushes 5 items the global chunk FIFO still holds 0
    chunks (not 1) and the worker next chunk is null (not one item): all five
    items sit in the worker current chunk. -/
theorem chunked_batching_default_counterexample :
    (let s5 := applyOps 4 true initCF
      [Op.pushOp 0 1, Op.pushOp 0 2, Op.pushOp 0 3, Op.pushOp 0 4, Op.pushOp 0 5]
     s5.items.length = 0 ∧ ¬ s5.items.length = 1 ∧ (s5.procs 0).next = none ∧
       (s5.procs 0).curr = some [5, 4, 3, 2, 1]) := by
  decide

/-- C2 amended: with ChunkSize = 4 and pushToLocal = false, after a single
    worker pushes 4 items the global chunk FIFO holds 0 chunks; after the 5th
    push it holds exactly one chunk, the full one, and the worker next chunk
    holds exactly one item. -/
theorem chunked_batching_push_next :
    (let s4 := applyOps 4 false initCF
      [Op.pushOp 0 1, Op.pushOp 0 2, Op.pushOp 0 3, Op.pushOp 0 4]
     let s5 := applyOps 4 false initCF
      [Op.pushOp 0 1, Op.pushOp 0 2, Op.pushOp 0 3, Op.pushOp 0 4, Op.pushOp 0 5]
     s4.items = [] ∧ s5.items = [some [4, 3, 2, 1]] ∧
       (s5.procs 0).next = some [5] ∧ (s5.procs 0).nextSize = 1) := by
  decide

/-- C6 counterexample: with a single worker (ChunkSize 4, default
    pushToLocal), after push 1, push 2, aborted 5, the immediately following
    pop returns 2 from the current chunk, not the aborted item 5. -/
theorem aborted_locality_counterexample :
    (let s := applyOps 4 true initCF [Op.pushOp 0 1, Op.pushOp 0 2, Op.abortOp 0 5]
     (ChunkedFIFO.pop s 0).1 = (true, 2) ∧ ¬ (ChunkedFIFO.pop s 0).1.2 = 5) := by
  decide

/-- C1 counterexample: with ChunkSize = 4, fill_initial over a single item
    publishes a chunk holding one item to the global chunk FIFO, refuting the
    claim that every globally visible chunk holds exactly ChunkSize items for
    every sequence of push, aborted and fill_initial operations. -/
theorem chunk_fullness_counterexample :
    ¬ (∀ oc ∈ (applyOps 4 true initCF [Op.fillInit 0 [1]]).items,
        ∀ c, oc = some c → c.length = 4) := by
  intro h
  exact absurd (h (some [1]) (by decide) [1] rfl) (by decide)


/-- Folding max over a list starting from x yields an element of x :: xs. -/
theorem foldl_max_mem {T : Type} [LinearOrder T] (xs : List T) (x : T) :
    xs.foldl max x ∈ x :: xs := by
  induction xs generalizing x with
  | nil => simp
  | cons y ys ih =>
    have h := ih (max x y)
    simp only [List.foldl_cons]
    rcases List.mem_cons.mp h with h | h
    · rw [h]
      rcases max_choice x y with hm | hm <;> rw [hm] <;> simp
    · exact List.mem_cons.mpr (Or.inr (List.mem_cons.mpr (Or.inr h)))

/-- The top of a non-empty priority queue is one of its elements. -/
theorem pqTop_mem {T : Type} [Inhabited T] [LinearOrder T] (s : List T)
    (h : s ≠ []) : pqTop s ∈ s := by
  cases s with
  | nil => exact absurd rfl h
  | cons x xs => exact foldl_max_mem xs x

/-- C7: for each STL-adapter worklist (LIFO, FIFO, PriQueue), pop on an
    empty worklist returns ok = false with the default-constructed sentinel
    and leaves the contents unchanged; pop on a non-empty worklist returns
    ok = true together with one dequeued item: the returned item is in the
    worklist and the new contents are the old contents minus one occurrence
    of it. -/
theorem stl_pop_spec (T : Type) [Inhabited T] [LinearOrder T] (e s : List T)
    (he : e = []) (hs : s ≠ []) :
    (lifoPop e = ((false, default), e) ∧ fifoPop e = ((false, default), e) ∧
      pqPop e = ((false, default), e)) ∧
    ((lifoPop s).1.1 = true ∧ (lifoPop s).1.2 ∈ s ∧
      (lifoPop s).2 = s.erase (lifoPop s).1.2) ∧
    ((fifoPop s).1.1 = true ∧ (fifoPop s).1.2 ∈ s ∧
      (fifoPop s).2 = s.erase (fifoPop s).1.2) ∧
    ((pqPop s).1.1 = true ∧ (pqPop s).1.2 ∈ s ∧
      (pqPop s).2 = s.erase (pqPop s).1.2) := by
  subst he
  refine ⟨⟨rfl, rfl, rfl⟩, ?_, ?_, ?_⟩
  · cases s with
    | nil => exact absurd rfl hs
    | cons x xs =>
      refine ⟨rfl, ?_, ?_⟩
      · simp [lifoPop, stlPop]
      · simp [lifoPop, stlPop, List.erase_cons_head]
  · cases s with
    | nil => exact absurd rfl hs
    | cons x xs =>
      refine ⟨rfl, ?_, ?_⟩
      · simp [fifoPop, stlPop]
      · simp [fifoPop, stlPop, List.erase_cons_head]
  · cases s with
    | nil => exact absurd rfl hs
    | cons x xs =>
      refine ⟨rfl, ?_, rfl⟩
      exact pqTop_mem (x :: xs) (by simp)

/-- C7 witness at concrete inputs: the hypotheses hold of [] and [2, 5, 1],
    and popping the priority queue [2, 5, 1] returns an element of it. -/
theorem stl_pop_spec_witness :
    (([] : List Nat) = [] ∧ ([2, 5, 1] : List Nat) ≠ []) ∧
      (pqPop ([2, 5, 1] : List Nat)).1.2 ∈ ([2, 5, 1] : List Nat) :=
  ⟨⟨rfl, by decide⟩, (stl_pop_spec Nat [] [2, 5, 1] rfl (by decide)).2.2.2.2.1⟩

/-- The slot walk of the cache push, on slots that are all valid, forwards a
    value whose metric dominates the walked value and every item left in the
    slots. -/
theorem cache_pushAux_spec {T : Type} (I : T → Nat) (v : T)
    (slots : List (Option T)) (h : ∀ oc ∈ slots, oc.isSome = true) :
    ∃ r, (CacheByIntegerMetric.pushAux I v slots).1 = some r ∧ I v ≤ I r ∧
      ∀ x, some x ∈ (CacheByIntegerMetric.pushAux I v slots).2 → I x ≤ I r := by
  induction slots generalizing v with
  | nil =>
    refine ⟨v, rfl, le_refl _, ?_⟩
    intro x hx
    simp [CacheByIntegerMetric.pushAux] at hx
  | cons oc rest ih =>
    cases oc with
    | none => exact absurd (h none (by simp)) (by simp)
    | some x =>
      have hrest : ∀ oc ∈ rest, oc.isSome = true :=
        fun oc hoc => h oc (List.mem_cons.mpr (Or.inr hoc))
      by_cases hlt : I v < I x
      · obtain ⟨r, hr, hxr, hall⟩ := ih x hrest
        refine ⟨r, ?_, le_of_lt (lt_of_lt_of_le hlt hxr), ?_⟩
        · simp [CacheByIntegerMetric.pushAux, hlt, hr]
        · intro y hy
          simp only [CacheByIntegerMetric.pushAux, if_pos hlt] at hy
          rcases List.mem_cons.mp hy with hy | hy
          · cases hy
            exact le_of_lt (lt_of_lt_of_le hlt hxr)
          · exact hall y hy
      · obtain ⟨r, hr, hvr, hall⟩ := ih v hrest
        refine ⟨r, ?_, hvr, ?_⟩
        · simp [CacheByIntegerMetric.pushAux, hlt, hr]
        · intro y hy
          simp only [CacheByIntegerMetric.pushAux, if_neg hlt] at hy
          rcases List.mem_cons.mp hy with hy | hy
          · cases hy
            exact le_trans (le_of_not_lt hlt) hvr
          · exact hall y hy

/-- C5: when push(v) on CacheByIntegerMetric finds every cache slot valid,
    exactly one item is forwarded to the parent worklist, and its metric is
    greater than or equal to the metric of v and of every item remaining in
    the cache slots after the push. -/
theorem cache_evicts_worst {T : Type} (I : T → Nat) (c : CacheWL T) (v : T)
    (h : ∀ oc ∈ c.slots, oc.isSome = true) :
    ∃ r, (CacheByIntegerMetric.push I c v).parent = c.parent ++ [r] ∧
      I v ≤ I r ∧
      ∀ x, some x ∈ (CacheByIntegerMetric.push I c v).slots → I x ≤ I r := by
  obtain ⟨r, hr, hvr, hall⟩ := cache_pushAux_spec I v c.slots h
  refine ⟨r, ?_, hvr, ?_⟩
  · simp [CacheByIntegerMetric.push, hr]
  · intro x hx
    apply hall x
    simpa [CacheByIntegerMetric.push, hr] using hx

/-- C5 witness: a full two-slot cache holding 5 and 2 with identity metric;
    pushing 7 forwards an item dominating 7 and everything left in the cache. -/
theorem cache_evicts_worst_witness :
    (∀ oc ∈ (⟨[some 5, some 2], []⟩ : CacheWL Nat).slots, oc.isSome = true) ∧
      ∃ r, (CacheByIntegerMetric.push (fun v => v)
              (⟨[some 5, some 2], []⟩ : CacheWL Nat) 7).parent = [] ++ [r] ∧
        (fun (v : Nat) => v) 7 ≤ (fun (v : Nat) => v) r ∧
        ∀ x, some x ∈ (CacheByIntegerMetric.push (fun v => v)
            (⟨[some 5, some 2], []⟩ : CacheWL Nat) 7).slots →
          (fun (v : Nat) => v) x ≤ (fun (v : Nat) => v) r :=
  ⟨by decide,
    cache_evicts_worst (fun v => v) (⟨[some 5, some 2], []⟩ : CacheWL Nat) 7
      (by decide)⟩


/-- The scan loop of the OBIM pop never moves the cursor backward. -/
theorem popGo_cursor_ge {T : Type} [Inhabited T] (sz : Nat) (fuel : Nat)
    (data : List (List T)) (cur : Nat) :
    cur ≤ (OrderedByIntegerMetric.popGo sz fuel data cur).2.2 := by
  induction fuel generalizing cur with
  | zero => exact le_refl _
  | succ f ih =>
    simp only [OrderedByIntegerMetric.popGo]
    cases hb : data.getD cur [] with
    | nil =>
      by_cases hc : cur < sz
      · simp only [if_pos hc]
        exact le_trans (Nat.le_succ cur) (ih (cur + 1))
      · simp only [if_neg hc]
        exact le_refl _
    | cons x xs => exact le_refl _

/-- The scan loop of the OBIM pop, started at c0 with enough fuel, stops at
    the first index j at or after c0 whose bucket is non-empty, pops the
    front of that bucket, and leaves the cursor at j. -/
theorem popGo_first {T : Type} [Inhabited T] (sz : Nat) (j : Nat) (x : T)
    (xs : List T) (fuel : Nat) (data : List (List T)) (c0 : Nat)
    (hcj : c0 ≤ j) (hfuel : j - c0 < fuel) (hjsz : j < sz)
    (hmin : ∀ k, c0 ≤ k → k < j → data.getD k [] = [])
    (hj : data.getD j [] = x :: xs) :
    OrderedByIntegerMetric.popGo sz fuel data c0
      = ((true, x), data.set j xs, j) := by
  induction fuel generalizing c0 with
  | zero => exact absurd hfuel (Nat.not_lt_zero _)
  | succ f ih =>
    rcases Nat.eq_or_lt_of_le hcj with heq | hlt
    · subst heq
      simp only [OrderedByIntegerMetric.popGo]
      rw [hj]
    · have hb : data.getD c0 [] = ([] : List T) := hmin c0 (le_refl _) hlt
      have hc : c0 < sz := lt_trans hlt hjsz
      simp only [OrderedByIntegerMetric.popGo]
      rw [hb]
      simp only [if_pos hc]
      exact ih (c0 + 1) hlt (by omega)
        (fun k hk1 hk2 => hmin k (le_trans (Nat.le_succ c0) hk1) hk2)

/-- C4: the OBIM cursor discipline. A push to a bucket at or above the
    cursor leaves the cursor unchanged (so between two pops with no
    lower-index push the cursor is non-decreasing); a pop started with the
    cursor below size never decreases the cursor; a pop started with the
    cursor equal to size (range + 1 buckets, cursor past the last index)
    behaves exactly as a pop started at 0; and a pop whose first non-empty
    bucket at or after the cursor is j returns the front item of bucket j
    and leaves the cursor at j. -/
theorem obim_cursor_spec (T : Type) [Inhabited T] (I : T → Nat → Nat)
    (sp s sw sd : OBIM T) (v : T) (j : Nat) (x : T) (xs : List T) :
    (sp.cursor ≤ I v sp.size →
      (OrderedByIntegerMetric.push I sp v).cursor = sp.cursor) ∧
    (s.cursor ≠ s.size →
      s.cursor ≤ (OrderedByIntegerMetric.pop s).2.cursor) ∧
    (sw.cursor = sw.size →
      OrderedByIntegerMetric.pop sw
        = OrderedByIntegerMetric.pop ⟨sw.size, sw.data, 0⟩) ∧
    (sd.cursor ≠ sd.size → sd.cursor ≤ j → j < sd.size →
      (∀ k, sd.cursor ≤ k → k < j → sd.data.getD k [] = []) →
      sd.data.getD j [] = x :: xs →
      OrderedByIntegerMetric.pop sd
        = ((true, x), ⟨sd.size, sd.data.set j xs, j⟩)) := by
  refine ⟨?_, ?_, ?_, ?_⟩
  · intro h
    simp only [OrderedByIntegerMetric.push]
    have : ¬ sp.cursor > I v sp.size := not_lt_of_le h
    simp [this]
  · intro h
    simp only [OrderedByIntegerMetric.pop, if_neg h]
    exact popGo_cursor_ge s.size (s.size + 1) s.data s.cursor
  · intro h
    simp only [OrderedByIntegerMetric.pop, if_pos h]
    by_cases h0 : (0 : Nat) = sw.size
    · simp [← h0]
    · simp [h0]
  · intro h hcj hjsz hmin hj
    simp only [OrderedByIntegerMetric.pop, if_neg h]
    rw [popGo_first sd.size j x xs (sd.size + 1) sd.data sd.cursor hcj
      (by omega) hjsz hmin hj]

/-- C4 witness: on the concrete OBIM state with size 4, buckets
    [[], [], [5], []] and cursor 1, a push of 2 (index 2, at or above the
    cursor) keeps the cursor at 1; the state satisfies the first-non-empty
    hypotheses at j = 2 and its pop returns bucket 2 front item 5 moving the
    cursor to 2; and on the wrapped state with cursor 4 the pop agrees with
    the pop started at cursor 0. -/
theorem obim_cursor_spec_witness :
    (OrderedByIntegerMetric.push (fun v _ => v)
        (⟨4, [[], [], [5], []], 1⟩ : OBIM Nat) 2).cursor = 1 ∧
    OrderedByIntegerMetric.pop (⟨4, [[], [], [], []], 4⟩ : OBIM Nat)
      = OrderedByIntegerMetric.pop (⟨4, [[], [], [], []], 0⟩ : OBIM Nat) ∧
    OrderedByIntegerMetric.pop (⟨4, [[], [], [5], []], 1⟩ : OBIM Nat)
      = ((true, 5), (⟨4, [[], [], [], []], 2⟩ : OBIM Nat)) := by
  have h := obim_cursor_spec Nat (fun v _ => v)
    (⟨4, [[], [], [5], []], 1⟩ : OBIM Nat)
    (⟨4, [[], [], [5], []], 1⟩ : OBIM Nat)
    (⟨4, [[], [], [], []], 4⟩ : OBIM Nat)
    (⟨4, [[], [], [5], []], 1⟩ : OBIM Nat) 2 2 5 []
  refine ⟨h.1 (by decide), h.2.2.1 rfl, ?_⟩
  have hd := h.2.2.2 (by decide) (by decide) (by decide)
    (fun k hk1 hk2 => by
      have h1 : 1 ≤ k := hk1
      have h2 : k < 2 := hk2
      have h3 : k = 1 := by omega
      subst h3
      rfl)
    rfl
  have hset : ([[], [], [5], []] : List (List Nat)).set 2 [] = [[], [], [], []] := by
    decide
  rw [hd, hset]


theorem numChunks_fill_curr_le {T : Type} (s : CF T) (w : Nat) :
    ChunkedFIFO.numChunks (ChunkedFIFO.fill_curr s w) w
      ≤ ChunkedFIFO.numChunks s w := by
  cases hitems : s.items with
  | nil =>
    simp only [ChunkedFIFO.fill_curr, hitems, ChunkedFIFO.numChunks, setAt]
    simp [hitems]
  | cons oc rest =>
    simp only [ChunkedFIFO.fill_curr, hitems, ChunkedFIFO.numChunks, setAt]
    simp [hitems]
    cases oc <;> cases (s.procs w).curr <;> simp <;> omega

theorem popFuel_isSome {T : Type} [Inhabited T] (fuel : Nat) :
    ∀ (s : CF T) (w : Nat), ChunkedFIFO.numChunks s w < fuel →
      (ChunkedFIFO.popFuel fuel s w).isSome = true := by
  induction fuel with
  | zero => intro s w h; exact absurd h (Nat.not_lt_zero _)
  | succ f ih =>
    intro s w h
    simp only [ChunkedFIFO.popFuel]
    generalize hgen :
      (if (s.procs w).curr.isNone then ChunkedFIFO.fill_curr s w else s) = s1
    have hle : ChunkedFIFO.numChunks s1 w ≤ ChunkedFIFO.numChunks s w := by
      rw [← hgen]
      split
      · exact numChunks_fill_curr_le s w
      · exact le_refl _
    cases hcur : (s1.procs w).curr with
    | none => rfl
    | some c =>
      cases c with
      | nil =>
        have h2 : ChunkedFIFO.numChunks
            (CF.mk s1.items (setAt s1.procs w
              (ProcRec.mk (s1.procs w).next (s1.procs w).nextSize none))) w + 1
            = ChunkedFIFO.numChunks s1 w := by
          simp [ChunkedFIFO.numChunks, setAt, hcur]
        exact ih _ w (by omega)
      | cons x xs => rfl


/-- C9: every call to ChunkedFIFO.pop terminates: fuel equal to the number
    of chunk slots reachable by the worker plus one (global FIFO entries
    plus the worker next and curr slots) always suffices for the fueled pop,
    since each recursive call first deletes the worker empty curr chunk and
    curr is refilled only from the global FIFO or the worker own next chunk;
    and a pop with no chunks available returns ok = false. -/
theorem chunked_pop_terminates (T : Type) [Inhabited T] (s : CF T) (w : Nat) :
    (ChunkedFIFO.popFuel (ChunkedFIFO.numChunks s w + 1) s w).isSome = true ∧
    (ChunkedFIFO.numChunks s w = 0 →
      (ChunkedFIFO.pop s w).1 = (false, default)) := by
  constructor
  · exact popFuel_isSome _ s w (Nat.lt_succ_self _)
  · intro h0
    cases hcur : (s.procs w).curr with
    | some c => simp [ChunkedFIFO.numChunks, hcur] at h0
    | none =>
      cases hnext : (s.procs w).next with
      | some c => simp [ChunkedFIFO.numChunks, hnext] at h0
      | none =>
        cases hitems : s.items with
        | cons oc rest => simp [ChunkedFIFO.numChunks, hitems] at h0
        | nil =>
          simp [ChunkedFIFO.pop, ChunkedFIFO.numChunks, hcur, hnext, hitems,
            ChunkedFIFO.popFuel, ChunkedFIFO.fill_curr, setAt]

/-- C9 witness: a freshly constructed ChunkedFIFO has no reachable chunks,
    and its pop returns ok = false with the sentinel. -/
theorem chunked_pop_terminates_witness :
    ChunkedFIFO.numChunks (initCF (T := Nat)) 0 = 0 ∧
      (ChunkedFIFO.pop (initCF (T := Nat)) 0).1 = (false, 0) :=
  ⟨by decide, (chunked_pop_terminates Nat initCF 0).2 (by decide)⟩


/-- C6 amended: after aborted(v) the item v sits on top of the worker next
    chunk; with a single worker the immediately following pop returns v
    provided the global chunk FIFO is empty, the worker curr chunk is null
    or empty, and the worker next chunk is not at the publication threshold
    (otherwise pop drains the current chunk or a published chunk first). -/
theorem aborted_then_pop (T : Type) [Inhabited T] (CS : Nat) (s : CF T)
    (w : Nat) (v : T) (hCS : 0 < CS) (hitems : s.items = [])
    (hcurr : (s.procs w).curr = none ∨ (s.procs w).curr = some [])
    (hnext : (s.procs w).next = none ∨ (s.procs w).nextSize ≠ CS) :
    (ChunkedFIFO.pop (ChunkedFIFO.aborted CS s w v) w).1 = (true, v) := by
  have hpush : ∃ c k, ChunkedFIFO.pushNextRec CS (s.procs w) v
      = (ProcRec.mk (some (v :: c)) k ((s.procs w).curr), []) := by
    cases hn : (s.procs w).next with
    | none =>
      refine ⟨[], 1, ?_⟩
      simp [ChunkedFIFO.pushNextRec, hn, Nat.ne_of_lt hCS]
    | some c =>
      rcases hnext with hn2 | hns
      · rw [hn] at hn2
        exact absurd hn2 (by simp)
      · refine ⟨c, (s.procs w).nextSize + 1, ?_⟩
        simp [ChunkedFIFO.pushNextRec, hn, hns]
  obtain ⟨c, k, hpush⟩ := hpush
  have hs2 : ChunkedFIFO.aborted CS s w v
      = CF.mk [] (setAt s.procs w
          (ProcRec.mk (some (v :: c)) k ((s.procs w).curr))) := by
    simp [ChunkedFIFO.aborted, ChunkedFIFO.push_next, hpush, hitems]
  rw [hs2]
  rcases hcurr with hc | hc
  · rw [hc]
    simp [ChunkedFIFO.pop, ChunkedFIFO.numChunks, setAt, ChunkedFIFO.popFuel,
      ChunkedFIFO.fill_curr]
  · rw [hc]
    simp [ChunkedFIFO.pop, ChunkedFIFO.numChunks, setAt, ChunkedFIFO.popFuel,
      ChunkedFIFO.fill_curr]

/-- C6 witness: a fresh single-worker ChunkedFIFO with ChunkSize 4 satisfies
    the side conditions, and the pop immediately following aborted(5)
    returns 5. -/
theorem aborted_then_pop_witness :
    ((0 : Nat) < 4 ∧ (initCF (T := Nat)).items = [] ∧
      ((initCF (T := Nat)).procs 0).curr = none ∧
      ((initCF (T := Nat)).procs 0).next = none) ∧
    (ChunkedFIFO.pop (ChunkedFIFO.aborted 4 (initCF (T := Nat)) 0 5) 0).1
      = (true, 5) :=
  ⟨⟨by decide, rfl, rfl, rfl⟩,
    aborted_then_pop Nat 4 initCF 0 5 (by decide) rfl (Or.inl rfl) (Or.inl rfl)⟩


/-- Chunks of known length stay that length under the some constructor. -/
theorem some_eq_len {T : Type} (a : List T) (k : Nat) (h : a.length = k) :
    ∀ c : List T, some a = some c → c.length = k := by
  intro c hc
  injection hc with h2
  rw [← h2]
  exact h

/-- A singleton publication list whose chunk has length CS satisfies the
    chunk-fullness condition. -/
theorem mem_singleton_full {T : Type} (a : List T) (CS : Nat)
    (h : a.length = CS) :
    ∀ oc ∈ [some a], ∀ c : List T, oc = some c → c.length = CS := by
  intro oc hoc c hc
  simp at hoc
  subst hoc
  injection hc with h2
  rw [← h2]
  exact h

/-- push_next at the record level preserves the sized-next invariant and
    publishes only chunks of exactly CS items. -/
theorem pushNextRec_spec {T : Type} (CS : Nat) (n : ProcRec T) (v : T)
    (hn : ∀ c, n.next = some c → c.length = n.nextSize) :
    (∀ c, (ChunkedFIFO.pushNextRec CS n v).1.next = some c →
      c.length = (ChunkedFIFO.pushNextRec CS n v).1.nextSize) ∧
    (∀ oc ∈ (ChunkedFIFO.pushNextRec CS n v).2, ∀ c, oc = some c →
      c.length = CS) := by
  cases hnx : n.next with
  | none =>
    by_cases h0 : (0 : Nat) = CS
    · simp only [ChunkedFIFO.pushNextRec, hnx, if_pos h0]
      exact ⟨some_eq_len [v] 1 rfl, mem_singleton_full [] CS (by simp [← h0])⟩
    · simp only [ChunkedFIFO.pushNextRec, hnx, if_neg h0]
      refine ⟨some_eq_len [v] (0 + 1) rfl, ?_⟩
      intro oc hoc
      simp at hoc
  | some c0 =>
    by_cases h0 : n.nextSize = CS
    · simp only [ChunkedFIFO.pushNextRec, hnx, if_pos h0]
      exact ⟨some_eq_len [v] 1 rfl,
        mem_singleton_full c0 CS ((hn c0 hnx).trans h0)⟩
    · simp only [ChunkedFIFO.pushNextRec, hnx, if_neg h0]
      refine ⟨some_eq_len (v :: c0) (n.nextSize + 1) (by simp [hn c0 hnx]), ?_⟩
      intro oc hoc
      simp at hoc

/-- push_next preserves chunk fullness of the global FIFO and the sized-next
    invariant. -/
theorem inv_push_next {T : Type} (CS : Nat) (s : CF T) (w : Nat) (v : T)
    (hP : itemsFull CS s) (hQ : nextSized s) :
    itemsFull CS (ChunkedFIFO.push_next CS s w v) ∧
      nextSized (ChunkedFIFO.push_next CS s w v) := by
  have hrec := pushNextRec_spec CS (s.procs w) v (hQ w)
  constructor
  · intro oc hoc c hc
    simp only [ChunkedFIFO.push_next] at hoc
    rcases List.mem_append.mp hoc with h | h
    · exact hP oc h c hc
    · exact hrec.2 oc h c hc
  · intro u c hc
    simp only [ChunkedFIFO.push_next, setAt] at hc ⊢
    by_cases hu : u = w
    · simp only [if_pos hu] at hc ⊢
      exact hrec.1 c hc
    · simp only [if_neg hu] at hc ⊢
      exact hQ u c hc

/-- fill_curr preserves chunk fullness and the sized-next invariant: it only
    removes a chunk from the global FIFO or moves next into curr. -/
theorem inv_fill_curr {T : Type} (CS : Nat) (s : CF T) (w : Nat)
    (hP : itemsFull CS s) (hQ : nextSized s) :
    itemsFull CS (ChunkedFIFO.fill_curr s w) ∧
      nextSized (ChunkedFIFO.fill_curr s w) := by
  cases hitems : s.items with
  | cons oc0 rest =>
    constructor
    · intro oc hoc c hc
      simp only [ChunkedFIFO.fill_curr, hitems] at hoc
      exact hP oc (by rw [hitems]; exact List.mem_cons_of_mem _ hoc) c hc
    · intro u c hc
      simp only [ChunkedFIFO.fill_curr, hitems, setAt] at hc ⊢
      by_cases hu : u = w
      · simp only [if_pos hu] at hc ⊢
        exact hQ w c hc
      · simp only [if_neg hu] at hc ⊢
        exact hQ u c hc
  | nil =>
    constructor
    · intro oc hoc c hc
      simp only [ChunkedFIFO.fill_curr, hitems] at hoc
      simp at hoc
    · intro u c hc
      simp only [ChunkedFIFO.fill_curr, hitems, setAt] at hc ⊢
      by_cases hu : u = w
      · simp only [if_pos hu] at hc ⊢
        exact absurd hc (by simp)
      · simp only [if_neg hu] at hc ⊢
        exact hQ u c hc

/-- Replacing only the curr slot of one worker preserves chunk fullness and
    the sized-next invariant. -/
theorem inv_set_curr {T : Type} (CS : Nat) (s : CF T) (w : Nat)
    (oc : Option (Chunk T)) (hP : itemsFull CS s) (hQ : nextSized s) :
    itemsFull CS (CF.mk s.items (setAt s.procs w
        (ProcRec.mk (s.procs w).next (s.procs w).nextSize oc))) ∧
      nextSized (CF.mk s.items (setAt s.procs w
        (ProcRec.mk (s.procs w).next (s.procs w).nextSize oc))) := by
  constructor
  · intro oc2 hoc c hc
    exact hP oc2 hoc c hc
  · intro u c hc
    simp only [setAt] at hc ⊢
    by_cases hu : u = w
    · simp only [if_pos hu] at hc ⊢
      exact hQ w c hc
    · simp only [if_neg hu] at hc ⊢
      exact hQ u c hc

/-- push_local preserves chunk fullness and the sized-next invariant. -/
theorem inv_push_local {T : Type} (CS : Nat) (s : CF T) (w : Nat) (v : T)
    (hP : itemsFull CS s) (hQ : nextSized s) :
    itemsFull CS (ChunkedFIFO.push_local CS s w v) ∧
      nextSized (ChunkedFIFO.push_local CS s w v) := by
  simp only [ChunkedFIFO.push_local]
  generalize hgen :
    (if (s.procs w).curr.isNone then ChunkedFIFO.fill_curr s w else s) = s1
  have hs1 : itemsFull CS s1 ∧ nextSized s1 := by
    rw [← hgen]
    split
    · exact inv_fill_curr CS s w hP hQ
    · exact ⟨hP, hQ⟩
  cases hcur : (s1.procs w).curr with
  | some c => exact inv_set_curr CS s1 w (some (v :: c)) hs1.1 hs1.2
  | none => exact inv_push_next CS s1 w v hs1.1 hs1.2

/-- The fueled pop preserves chunk fullness and the sized-next invariant in
    its result state. -/
theorem inv_popFuel {T : Type} [Inhabited T] (CS : Nat) (fuel : Nat) :
    ∀ (s : CF T) (w : Nat) (r : (Bool × T) × CF T),
      itemsFull CS s → nextSized s →
      ChunkedFIFO.popFuel fuel s w = some r →
      itemsFull CS r.2 ∧ nextSized r.2 := by
  induction fuel with
  | zero =>
    intro s w r hP hQ h
    simp [ChunkedFIFO.popFuel] at h
  | succ f ih =>
    intro s w r hP hQ h
    simp only [ChunkedFIFO.popFuel] at h
    revert h
    generalize hgen :
      (if (s.procs w).curr.isNone then ChunkedFIFO.fill_curr s w else s) = s1
    have hs1 : itemsFull CS s1 ∧ nextSized s1 := by
      rw [← hgen]
      split
      · exact inv_fill_curr CS s w hP hQ
      · exact ⟨hP, hQ⟩
    cases hcur : (s1.procs w).curr with
    | none =>
      intro h
      injection h with h2
      rw [← h2]
      exact hs1
    | some c =>
      cases c with
      | nil =>
        intro h
        exact ih _ w r (inv_set_curr CS s1 w none hs1.1 hs1.2).1
          (inv_set_curr CS s1 w none hs1.1 hs1.2).2 h
      | cons x xs =>
        intro h
        injection h with h2
        rw [← h2]
        exact inv_set_curr CS s1 w (some xs) hs1.1 hs1.2

/-- pop preserves chunk fullness and the sized-next invariant. -/
theorem inv_pop {T : Type} [Inhabited T] (CS : Nat) (s : CF T) (w : Nat)
    (hP : itemsFull CS s) (hQ : nextSized s) :
    itemsFull CS (ChunkedFIFO.pop s w).2 ∧
      nextSized (ChunkedFIFO.pop s w).2 := by
  unfold ChunkedFIFO.pop
  cases hval : ChunkedFIFO.popFuel (ChunkedFIFO.numChunks s w + 1) s w with
  | none => exact ⟨hP, hQ⟩
  | some r => exact inv_popFuel CS _ s w r hP hQ hval

/-- Every non-fill operation preserves chunk fullness and the sized-next
    invariant. -/
theorem inv_applyOp {T : Type} [Inhabited T] (CS : Nat) (ptl : Bool)
    (s : CF T) (op : Op T) (hop : op.isFill = false)
    (hP : itemsFull CS s) (hQ : nextSized s) :
    itemsFull CS (applyOp CS ptl s op) ∧ nextSized (applyOp CS ptl s op) := by
  cases op with
  | pushOp w v =>
    simp only [applyOp, ChunkedFIFO.push]
    split
    · exact inv_push_local CS s w v hP hQ
    · exact inv_push_next CS s w v hP hQ
  | abortOp w v => exact inv_push_next CS s w v hP hQ
  | popStep w => exact inv_pop CS s w hP hQ
  | fillInit w vals => simp [Op.isFill] at hop

/-- A sequence of non-fill operations preserves chunk fullness and the
    sized-next invariant. -/
theorem inv_applyOps {T : Type} [Inhabited T] (CS : Nat) (ptl : Bool)
    (ops : List (Op T)) :
    ∀ (s : CF T), (∀ op ∈ ops, op.isFill = false) →
      itemsFull CS s → nextSized s →
      itemsFull CS (applyOps CS ptl s ops) ∧
        nextSized (applyOps CS ptl s ops) := by
  induction ops with
  | nil =>
    intro s hops hP hQ
    exact ⟨hP, hQ⟩
  | cons op rest ih =>
    intro s hops hP hQ
    have h1 := inv_applyOp CS ptl s op (hops op (List.mem_cons_self _ _)) hP hQ
    exact ih (applyOp CS ptl s op)
      (fun o ho => hops o (List.mem_cons_of_mem _ ho)) h1.1 h1.2

/-- C1 amended: starting from a freshly constructed ChunkedFIFO, after every
    sequence of push, aborted and pop operations (fill_initial excluded,
    since it publishes the final next chunk even when incomplete or null),
    every chunk visible in the global chunk FIFO holds exactly ChunkSize
    items. -/
theorem chunk_fullness_no_fill (T : Type) [Inhabited T] (CS : Nat)
    (ptl : Bool) (ops : List (Op T)) (h : ∀ op ∈ ops, op.isFill = false) :
    ∀ oc ∈ (applyOps CS ptl initCF ops).items, ∀ c, oc = some c →
      c.length = CS := by
  have hinit1 : itemsFull CS (initCF (T := T)) := by
    intro oc hoc c hc
    simp [initCF] at hoc
  have hinit2 : nextSized (initCF (T := T)) := by
    intro u c hc
    simp [initCF] at hc
  exact (inv_applyOps CS ptl ops initCF h hinit1 hinit2).1

/-- C1 witness: with ChunkSize 2 and pushToLocal false, after pushes of
    1, 2, 3 by worker 0 one chunk is visible in the global FIFO and it holds
    exactly 2 items. -/
theorem chunk_fullness_no_fill_witness :
    (∀ op ∈ ([Op.pushOp 0 1, Op.pushOp 0 2, Op.pushOp 0 3] : List (Op Nat)),
      op.isFill = false) ∧
    (∀ oc ∈ (applyOps 2 false initCF
        ([Op.pushOp 0 1, Op.pushOp 0 2, Op.pushOp 0 3] : List (Op Nat))).items,
      ∀ c, oc = some c → c.length = 2) :=
  ⟨by decide, chunk_fullness_no_fill Nat 2 false _ (by decide)⟩

end GaloisWL
